import Mathlib

/-!
Verification of the `plug` audio-processing package (zikichombo.org/plug).

The Go sources are shallowly embedded: slices become an explicit
backing-array/length pair, in-place mutation becomes explicit state
passing, external I/O results (stream reads/writes, processor errors)
become oracle arguments, and the `float64` samples — which the engine
only moves, never computes with — are modelled as integers.
-/

namespace Plug

/-- Sample values are opaque to the engine (it only copies them around),
so they are modelled as integers. -/
abbrev Sample := Int

/-- A Go slice of samples: `arr` is the backing array out to the slice's
capacity, `len` is the slice's length.  In Go `len ≤ cap` always holds;
theorems that need it take it as a hypothesis. -/
structure Slice where
  arr : List Sample
  len : Nat
deriving Repr, DecidableEq

/-- Capacity of a slice. -/
def Slice.cap (s : Slice) : Nat := s.arr.length

/-- The visible elements of a slice (`s[0:len]`). -/
def Slice.view (s : Slice) : List Sample := s.arr.take s.len

/-- Function `buffer` from packet.go: ensure `d` holds `c*f` elements,
reallocating to `(5*N)/3` (Go integer division, i.e. floor) elements and
copying the old contents forward when the capacity is insufficient, then
return `d[:N]`. -/
def buffer (d : Slice) (c f : Nat) : Slice :=
  let N := c * f
  if d.cap < N then
    { arr := d.view ++ List.replicate ((5 * N) / 3 - d.view.length) 0, len := N }
  else
    { arr := d.arr, len := N }

/-- Type `sound.Form`: a sample rate paired with a channel count.  The
rate type `freq.T` is opaque here; only equality of rates matters. -/
structure Form where
  sampleRate : Nat
  channels : Nat
deriving Repr, DecidableEq

/-- Error values visible to the engine.  `eof` stands for Go's `io.EOF`,
the designated end-of-stream sentinel; `streamErr` stands for any other
error coming out of a source, sink or processor. -/
inductive Err where
  | eof
  | freqMismatch
  | chanMismatch (got want : Nat)
  | alreadyInput (c : Nat)
  | alreadyOutput (c : Nat)
  | disconnected (isInput : Bool) (c : Nat)
  | streamErr (k : Nat)
deriving Repr, DecidableEq

/-- Type `cmap` from cmap.go: `m` is the forward table (node channel to
connection-local index, `-1` meaning unmapped), `i` the inverse table
(connection-local index to node channel). -/
structure Cmap where
  m : List Int
  i : List Int
deriving Repr, DecidableEq

/-- The `for i, c := range cs { res.m[c] = i; res.i[i] = c }` loop of
`newCmap` (cmap.go), with `idx` the running loop index.  An out-of-range
store would panic in Go and is a no-op here (`List.set`); all reachable
uses are in range. -/
def cmapFill : List Int → List Int → Nat → List Nat → List Int × List Int
  | m, i, _, [] => (m, i)
  | m, i, idx, c :: rest =>
      cmapFill (m.set c (Int.ofNat idx)) (i.set idx (Int.ofNat c)) (idx + 1) rest

/-- Function `newCmap` from cmap.go. -/
def newCmap (v : Form) (cs : List Nat) : Cmap :=
  let nC := v.channels
  if cs.isEmpty then
    { m := (List.range nC).map Int.ofNat, i := (List.range nC).map Int.ofNat }
  else
    { m := (cmapFill (List.replicate nC (-1)) (List.replicate cs.length (-1)) 0 cs).1
      i := (cmapFill (List.replicate nC (-1)) (List.replicate cs.length (-1)) 0 cs).2 }

/-- Method `cmap.mapC`.  Out-of-range access, a Go panic, yields `-1`
here; all reachable uses are in range. -/
def Cmap.mapC (m : Cmap) (c : Nat) : Int := m.m.getD c (-1)

/-- Method `cmap.imapC`.  Out-of-range access, a Go panic, yields `-1`
here; all reachable uses are in range. -/
def Cmap.imapC (m : Cmap) (c : Nat) : Int := m.i.getD c (-1)

/-- Index of the last occurrence of `c` in `cs`, the position whose
write survives the `newCmap` fill loop's last-write-wins overwriting of
the forward table. -/
def lastIdx? (cs : List Nat) (c : Nat) : Option Nat :=
  match cs with
  | [] => none
  | c0 :: rest =>
      match lastIdx? rest c with
      | some j => some (j + 1)
      | none => if c0 = c then some 0 else none

/-- Type `Block` from doc.go, with `samples` holding the contents of the
`Samples` slice. -/
structure Block where
  samples : List Sample
  frames : Nat
  channels : Nat
  sampleRate : Nat
deriving Repr, DecidableEq

/-- The sub-slice `l[start : start+n]` of a sample list. -/
def seg (l : List Sample) (start n : Nat) : List Sample := (l.drop start).take n

/-- Go `copy(dst[start:start+len(src)], src)`: overwrite `dst` at
positions `start, …` with `src`, clamped to `dst`'s length. -/
def writeSeg (dst : List Sample) (start : Nat) (src : List Sample) : List Sample :=
  dst.take start ++ src.take (dst.length - start) ++ dst.drop (start + src.length)

/-- Type `packet` from packet.go.  The `src`/`snk` endpoint references
are external; only whether `snk` is non-nil (`hasSnk`) affects the
engine's control flow, so that is what is kept. -/
structure Packet where
  err : Option Err
  n : Nat
  samples : Slice
  cmap : Cmap
  nC : Nat
  hasSnk : Bool
deriving Repr, DecidableEq

/-- Method `packet.init` from packet.go. -/
def Packet.init (p : Packet) (v : Form) (cs : List Nat) : Packet :=
  { p with
    cmap := newCmap v cs
    err := none
    n := 0
    samples := { arr := p.samples.arr, len := 0 }
    nC := if cs.isEmpty then v.channels else cs.length }

/-- Method `packet.put` from packet.go: scatter the packet's local buffer
through the forward channel map into `dst`, returning the updated block
and the frame count (Go mutates `dst` in place and returns `frms`). -/
def Packet.put (p : Packet) (dst : Block) : Block × Nat :=
  let sl := p.samples.view
  let nC := dst.channels
  let frms := p.n
  let samples := (List.range nC).foldl (fun acc c =>
    let cc := p.cmap.mapC c
    if cc = -1 then acc
    else writeSeg acc (c * frms) (seg sl (cc.toNat * frms) frms)) dst.samples
  ({ dst with samples := samples }, frms)

/-- Method `packet.get` from packet.go: grow the local buffer to
`len(cmap.i) × src.Frames` and gather the selected channels of `src`
into it through the inverse channel map.  The in-place copies into the
buffered slice are rendered as `writeSeg` on its view with the backing
tail beyond `len` carried along unchanged. -/
def Packet.get (p : Packet) (src : Block) : Packet :=
  let nC := p.cmap.i.length
  let frms := src.frames
  let sl := buffer p.samples nC frms
  let v := (List.range nC).foldl (fun acc cc =>
    let c := (p.cmap.imapC cc).toNat
    writeSeg acc (cc * frms) (seg src.samples (c * frms) frms)) sl.view
  { p with samples := { arr := v ++ sl.arr.drop sl.len, len := sl.len }, n := frms }

/-- Type `node` from io.go.  The concurrency plumbing (`conn`s, the
shared request/response channels, the mutex) and the `Processor` are
modelled separately where a claim needs them; the wiring state the
configuration calls maintain is kept here.  `ins`/`outs` entries are
per-connection workers, one per packet, so the packet lists carry the
whole configuration. -/
structure Node where
  iForm : Form
  oForm : Form
  icCounts : List Nat
  ocCounts : List Nat
  iPkts : List Packet
  oPkts : List Packet
deriving Repr, DecidableEq

/-- Function `New` from io.go (the `Processor` argument is handled as an
oracle where a claim needs it). -/
def New (iForm oForm : Form) : Node :=
  { iForm := iForm
    oForm := oForm
    icCounts := List.replicate iForm.channels 0
    ocCounts := List.replicate oForm.channels 0
    iPkts := []
    oPkts := [] }

/-- Index of the first counter that is positive, as scanned by the
`for c, ct := range …` loops of `ckInputsUnique`/`ckOutputsUnique`. -/
def firstPos : List Nat → Option Nat
  | [] => none
  | ct :: rest => if ct > 0 then some 0 else (firstPos rest).map (· + 1)

/-- Method `node.ckInputsUnique` from io.go.  Go mutates `n.icCounts`
and returns an error; here the (possibly updated) node is returned next
to the error.  On the error paths the source performs no writes, so the
node comes back unchanged. -/
def Node.ckInputsUnique (n : Node) (cs : List Nat) : Node × Option Err :=
  if cs.isEmpty then
    match firstPos n.icCounts with
    | some c => (n, some (.alreadyInput c))
    | none => ({ n with icCounts := n.icCounts.map fun _ => 1 }, none)
  else
    match cs.find? (fun c => n.icCounts.getD c 0 > 0) with
    | some c => (n, some (.alreadyInput c))
    | none => ({ n with icCounts := cs.foldl (fun acc c => acc.set c 1) n.icCounts }, none)

/-- Method `node.SetInput` from io.go.  Of the source only its `Form`
matters to the wiring logic; the registered packet records `hasSnk :=
false` (its `snk` field stays nil). -/
def Node.SetInput (n : Node) (src : Form) (cs : List Nat) : Node × Option Err :=
  if src.sampleRate ≠ n.iForm.sampleRate then (n, some .freqMismatch)
  else
    match n.ckInputsUnique cs with
    | (_, some e) => (n, some e)
    | (n', none) =>
        let pkt := Packet.init ⟨none, 0, ⟨[], 0⟩, ⟨[], []⟩, 0, false⟩ n'.iForm cs
        ({ n' with iPkts := n'.iPkts ++ [pkt] }, none)

/-- Method `node.AddOutput` from io.go.  Of the sink only its `Form`
matters to the wiring logic; the registered packet records `hasSnk :=
true`. -/
def Node.AddOutput (n : Node) (d : Form) (cs : List Nat) : Node × Option Err :=
  if d.sampleRate ≠ n.oForm.sampleRate then (n, some .freqMismatch)
  else if cs.isEmpty ∧ d.channels ≠ n.oForm.channels then
    (n, some (.chanMismatch d.channels n.oForm.channels))
  else if ¬cs.isEmpty ∧ d.channels ≠ cs.length then
    (n, some (.chanMismatch d.channels cs.length))
  else
    let counts :=
      if cs.isEmpty then n.ocCounts.map (· + 1)
      else cs.foldl (fun acc c => acc.set c (acc.getD c 0 + 1)) n.ocCounts
    let pkt := Packet.init ⟨none, 0, ⟨[], 0⟩, ⟨[], []⟩, 0, true⟩ n.oForm cs
    ({ n with ocCounts := counts, oPkts := n.oPkts ++ [pkt] }, none)

/-- Method `node.Output` from io.go.  Note that both branches of the
source's `if len(cs) != 0` increment every output-channel counter; the
redundant branch is kept to mirror the source.  The packet registered
for the internal pipe has both ends set, in particular `hasSnk :=
true`. -/
def Node.Output (n : Node) (cs : List Nat) : Node :=
  let counts :=
    if ¬cs.isEmpty then n.ocCounts.map (· + 1)
    else n.ocCounts.map (· + 1)
  let pkt := Packet.init ⟨none, 0, ⟨[], 0⟩, ⟨[], []⟩, 0, true⟩ n.oForm cs
  { n with ocCounts := counts, oPkts := n.oPkts ++ [pkt] }

/-- Index of the first zero counter, as scanned by the `for i, ct :=
range …` loops of `checkConns`. -/
def firstZero : List Nat → Option Nat
  | [] => none
  | ct :: rest => if ct = 0 then some 0 else (firstZero rest).map (· + 1)

/-- Method `node.checkConns` from io.go: the first unclaimed input
channel, else the first unclaimed output channel, reported as a
`DisconnectedError` (part_000: `dce(in, c)`). -/
def Node.checkConns (n : Node) : Option Err :=
  match firstZero n.icCounts with
  | some c => some (.disconnected true c)
  | none =>
      match firstZero n.ocCounts with
      | some c => some (.disconnected false c)
      | none => none

/-- The `for { err = n.process() … }` loop of `Run` (io.go), over the
successive results of `process` supplied as the oracle list `cycles`.
`some none` means `Run` returned nil, `some (some e)` means it returned
the error `e`, `none` means the oracle ran out before the loop exited. -/
def runLoop : List (Option Err) → Option (Option Err)
  | [] => none
  | some e :: _ => if e = .eof then some none else some (some e)
  | none :: rest => runLoop rest

/-- Method `node.Run` from io.go: `checkConns` first, then `serve`
(which spawns the connection workers — the Bool records whether it was
reached), then the process loop. -/
def Node.Run (n : Node) (cycles : List (Option Err)) : Bool × Option (Option Err) :=
  match n.checkConns with
  | some e => (false, some (some e))
  | none => (true, runLoop cycles)

/-- Result of the input-collection loop of `process` (io.go): an input
error returned early, the `panic("wilma!")` branch, or the agreed frame
count. -/
inductive Collect where
  | err (e : Err)
  | panicked
  | ok (nFrms : Int)
deriving Repr, DecidableEq

/-- The input-collection loop of `process` (io.go): receive each input
packet (already carrying its worker's results), return its error if any,
scatter it into the input block via `put`, and panic when a packet's
achieved frame count differs from the first one's.  `nFrms` starts at
the Go sentinel `-1`. -/
def collectLoop : List Packet → Block → Int → Collect × Block
  | [], blk, nFrms => (.ok nFrms, blk)
  | pkt :: rest, blk, nFrms =>
      match pkt.err with
      | some e => (.err e, blk)
      | none =>
          let r := pkt.put blk
          let m : Int := Int.ofNat r.2
          let nFrms' := if nFrms = -1 then m else nFrms
          if m ≠ nFrms' then (.panicked, r.1)
          else collectLoop rest r.1 nFrms'

/-- The per-channel loop of the `MonoMode` arm of `process` (io.go):
iteration `i` re-points both blocks' `Samples` at the `i`-th frame-run
of the saved slices `isl`/`osl` and calls `proc.Process(oBlock, iBlock)`
— no other field of either block is touched.  `perr i` is the error the
`i`-th call returns (the processor's sample writes do not feed back into
the fields this loop manipulates); each performed call is recorded as
the `(dst, src)` block values it received. -/
def monoModeGo (isl osl : List Sample) (nFrms : Nat) (perr : Nat → Option Err) :
    Nat → Nat → Block → Block → List (Block × Block) →
    List (Block × Block) × Option Err × Block × Block
  | _, 0, iB, oB, acc => (acc, none, iB, oB)
  | i, rem + 1, iB, oB, acc =>
      let iB' := { iB with samples := seg isl (i * nFrms) nFrms }
      let oB' := { oB with samples := seg osl (i * nFrms) nFrms }
      match perr i with
      | some e => (acc ++ [(oB', iB')], some e, iB', oB')
      | none => monoModeGo isl osl nFrms perr (i + 1) rem iB' oB' (acc ++ [(oB', iB')])

/-- The `MonoMode` arm of `process` (io.go): save `Channels` and
`Samples` of both blocks, run the per-channel loop (an erroring call
returns without restoring), then restore the saved members. -/
def monoModeArm (iBlock oBlock : Block) (iC nFrms : Nat) (perr : Nat → Option Err) :
    List (Block × Block) × Option Err × Block × Block :=
  let ic := iBlock.channels
  let isl := iBlock.samples
  let oc := oBlock.channels
  let osl := oBlock.samples
  let r := monoModeGo isl osl nFrms perr 0 iC iBlock oBlock []
  match r.2.1 with
  | some e => (r.1, some e, r.2.2.1, r.2.2.2)
  | none =>
      let iB := { r.2.2.1 with channels := ic, samples := isl }
      let oB := { r.2.2.2 with channels := oc, samples := osl }
      (r.1, none, iB, oB)

/-- One handled request of `conn.serve` (part_003): the worker-local
variable `m` and the handled packet before/after.  When the packet
carries a sink the worker sends and stores the *unassigned* local `m`
into `pkt.n`; when it carries no sink it receives, updating `m`.  The
external call's results are the oracle arguments `recv`/`send`. -/
def serveStep (m : Nat) (pkt : Packet) (recv : Nat × Option Err) (send : Option Err) :
    Nat × Packet :=
  if pkt.hasSnk = false then
    (recv.1, { pkt with n := recv.1, err := recv.2 })
  else
    (m, { pkt with n := m, err := send })

/-- One request handled by a `conn.serve` worker: the inbound packet and
the oracle results of the external receive/send call it triggers. -/
structure ServeEvent where
  pkt : Packet
  recv : Nat × Option Err
  send : Option Err
deriving Repr, DecidableEq

/-- A `conn.serve` worker's life: successive requests threaded through
the worker-local `m`, collecting each packet as handed back. -/
def serveRun (m : Nat) : List ServeEvent → Nat × List Packet
  | [] => (m, [])
  | ev :: rest =>
      let r := serveStep m ev.pkt ev.recv ev.send
      let s := serveRun r.1 rest
      (s.1, r.2 :: s.2)

/-! Helper lemmas about segment writes. -/

theorem length_writeSeg (dst : List Sample) (start : Nat) (src : List Sample) :
    (writeSeg dst start src).length = dst.length := by
  simp only [writeSeg, List.length_append, List.length_take, List.length_drop]
  omega

theorem seg_append_left (X Y : List Sample) (s n : Nat) (h : s + n ≤ X.length) :
    seg (X ++ Y) s n = seg X s n := by
  unfold seg
  rw [List.drop_append_eq_append_drop]
  rw [List.take_append_of_le_length (by rw [List.length_drop]; omega)]

theorem seg_append_right (X Y : List Sample) (s n : Nat) (h : X.length ≤ s) :
    seg (X ++ Y) s n = seg Y (s - X.length) n := by
  unfold seg
  rw [List.drop_append_eq_append_drop]
  rw [List.drop_eq_nil_of_le (by omega : X.length ≤ s), List.nil_append]

theorem writeSeg_eq_of_inRange (dst src : List Sample) (start : Nat)
    (h : start + src.length ≤ dst.length) :
    writeSeg dst start src = dst.take start ++ src ++ dst.drop (start + src.length) := by
  unfold writeSeg
  rw [show src.take (dst.length - start) = src from List.take_of_length_le (by omega)]

theorem seg_writeSeg_self (dst src : List Sample) (start : Nat)
    (h : start + src.length ≤ dst.length) :
    seg (writeSeg dst start src) start src.length = src := by
  rw [writeSeg_eq_of_inRange dst src start h]
  have hA : (dst.take start).length = start := by rw [List.length_take]; omega
  rw [seg_append_left _ _ _ _ (by rw [List.length_append, hA])]
  rw [seg_append_right _ _ _ _ (by omega)]
  unfold seg
  rw [hA, Nat.sub_self, List.drop_zero]
  exact List.take_of_length_le (Nat.le_refl _)

theorem seg_writeSeg_before (dst src : List Sample) (start s' n' : Nat)
    (h : s' + n' ≤ start) (hr : start ≤ dst.length) :
    seg (writeSeg dst start src) s' n' = seg dst s' n' := by
  have hA : (dst.take start).length = start := by rw [List.length_take]; omega
  unfold writeSeg
  rw [seg_append_left _ _ _ _ (by rw [List.length_append, hA]; omega)]
  rw [seg_append_left _ _ _ _ (by omega)]
  conv_rhs => rw [← List.take_append_drop start dst]
  rw [seg_append_left _ _ _ _ (by omega)]

theorem seg_writeSeg_after (dst src : List Sample) (start s' n' : Nat)
    (h : start + src.length ≤ s') (hr : start + src.length ≤ dst.length) :
    seg (writeSeg dst start src) s' n' = seg dst s' n' := by
  rw [writeSeg_eq_of_inRange dst src start hr]
  have hA : (dst.take start).length = start := by rw [List.length_take]; omega
  have hAB : (dst.take start ++ src).length = start + src.length := by
    rw [List.length_append, hA]
  rw [seg_append_right _ _ _ _ (by rw [hAB]; omega)]
  unfold seg
  rw [hAB, List.drop_drop]
  congr 2
  omega

/-- Length of a flattened list of equal-length frame runs. -/
theorem length_flatten_tile (frms : Nat) (f : Nat → List Sample) :
    ∀ (k : Nat), (∀ j < k, (f j).length = frms) →
      (((List.range k).map f).flatten).length = k * frms := by
  intro k
  induction k with
  | zero => intro _; simp
  | succ k ih =>
      intro h
      rw [List.range_succ, List.map_append, List.flatten_append]
      simp only [List.map_cons, List.map_nil, List.flatten_cons, List.flatten_nil,
        List.append_nil, List.length_append]
      rw [ih (fun j hj => h j (by omega)), h k (by omega)]
      ring

/-- A fold of segment writes that exactly tile the prefix of the buffer:
the result is the concatenation of the written runs, with the tail of
the initial buffer untouched. -/
theorem foldl_writeSeg_tile (frms : Nat) (f : Nat → List Sample) :
    ∀ (k : Nat) (init : List Sample),
      k * frms ≤ init.length → (∀ j < k, (f j).length = frms) →
      (List.range k).foldl (fun acc j => writeSeg acc (j * frms) (f j)) init
        = ((List.range k).map f).flatten ++ init.drop (k * frms) := by
  intro k
  induction k with
  | zero => intro init _ _; simp
  | succ k ih =>
      intro init hlen hf
      rw [List.range_succ, List.foldl_append]
      simp only [List.foldl_cons, List.foldl_nil]
      rw [ih init (by nlinarith) (fun j hj => hf j (by omega))]
      have hJ : (((List.range k).map f).flatten).length = k * frms :=
        length_flatten_tile frms f k (fun j hj => hf j (by omega))
      have hfk : (f k).length = frms := hf k (by omega)
      have hlen' : k * frms + (f k).length ≤
          ((((List.range k).map f).flatten) ++ init.drop (k * frms)).length := by
        rw [List.length_append, hJ, List.length_drop, hfk]
        have : (k + 1) * frms = k * frms + frms := by ring
        omega
      rw [writeSeg_eq_of_inRange _ _ _ hlen']
      rw [List.take_left' hJ]
      have hdrop : ((((List.range k).map f).flatten) ++ init.drop (k * frms)).drop
          (k * frms + (f k).length) = init.drop ((k + 1) * frms) := by
        rw [← hJ, List.drop_append, List.drop_drop, hJ, hfk]
        congr 1
        ring
      rw [hdrop, List.map_append, List.flatten_append]
      simp [List.append_assoc]

/-- A getD variant of `List.getElem?_set_ne`. -/
theorem getD_set_ne {α} (l : List α) (i j : Nat) (a d : α) (h : i ≠ j) :
    (l.set i a).getD j d = l.getD j d := by
  simp [List.getD_eq_getElem?_getD, List.getElem?_set_ne h]

/-- A getD variant of `List.getElem?_set_self`. -/
theorem getD_set_self {α} (l : List α) (i : Nat) (a d : α) (h : i < l.length) :
    (l.set i a).getD i d = a := by
  simp [List.getD_eq_getElem?_getD, List.getElem?_set_self h]

/-- A conditional fold of segment writes at pairwise distinct frame-run
positions preserves length. -/
theorem foldl_writeSeg_cond_length (cc : Nat → Int) (g : Nat → List Sample) (frms : Nat) :
    ∀ (ks : List Nat) (init : List Sample),
      ((ks.foldl (fun acc c => if cc c = -1 then acc else writeSeg acc (c * frms) (g c))
        init)).length = init.length := by
  intro ks
  induction ks with
  | nil => intro init; rfl
  | cons c rest ih =>
      intro init
      simp only [List.foldl_cons]
      rw [ih]
      by_cases h : cc c = -1
      · simp [h]
      · simp [h, length_writeSeg]

/-- Reading one frame-run out of a conditional fold of frame-run writes
(the loop body of `packet.put`): a written run reads back as written, a
skipped one as in the initial buffer. -/
theorem foldl_writeSeg_skip_seg (cc : Nat → Int) (g : Nat → List Sample) (frms nC : Nat)
    (hg : ∀ c, c < nC → ¬cc c = -1 → (g c).length = frms) :
    ∀ (k : Nat) (init : List Sample), k ≤ nC → init.length = nC * frms →
      ∀ c0, c0 < nC →
      seg ((List.range k).foldl
          (fun acc c => if cc c = -1 then acc else writeSeg acc (c * frms) (g c)) init)
          (c0 * frms) frms
        = if c0 < k ∧ ¬cc c0 = -1 then g c0 else seg init (c0 * frms) frms := by
  intro k
  induction k with
  | zero =>
      intro init _ _ c0 _
      simp
  | succ k ih =>
      intro init hk hlen c0 hc0
      rw [List.range_succ, List.foldl_append]
      simp only [List.foldl_cons, List.foldl_nil]
      have hfoldlen : ((List.range k).foldl
          (fun acc c => if cc c = -1 then acc else writeSeg acc (c * frms) (g c))
          init).length = nC * frms := by
        rw [foldl_writeSeg_cond_length, hlen]
      by_cases hck : cc k = -1
      · simp only [hck, if_true]
        rw [ih init (by omega) hlen c0 hc0]
        by_cases hc0k : c0 = k
        · subst hc0k
          simp [hck]
        · have : (c0 < k + 1 ∧ ¬cc c0 = -1) ↔ (c0 < k ∧ ¬cc c0 = -1) := by
            constructor
            · rintro ⟨h1, h2⟩; exact ⟨by omega, h2⟩
            · rintro ⟨h1, h2⟩; exact ⟨by omega, h2⟩
          simp only [this]
      · simp only [hck, if_false]
        rcases Nat.lt_trichotomy c0 k with hlt | heq | hgt
        · rw [seg_writeSeg_before _ _ _ _ _
            (by calc c0 * frms + frms = (c0 + 1) * frms := by ring
                  _ ≤ k * frms := Nat.mul_le_mul_right frms hlt)
            (by rw [hfoldlen]; exact Nat.mul_le_mul_right frms (by omega))]
          rw [ih init (by omega) hlen c0 hc0]
          have : (c0 < k + 1 ∧ ¬cc c0 = -1) ↔ (c0 < k ∧ ¬cc c0 = -1) := by
            constructor
            · rintro ⟨h1, h2⟩; exact ⟨by omega, h2⟩
            · rintro ⟨h1, h2⟩; exact ⟨by omega, h2⟩
          simp only [this]
        · subst heq
          have hgk : (g c0).length = frms := hg c0 hc0 hck
          have := seg_writeSeg_self ((List.range c0).foldl
              (fun acc c => if cc c = -1 then acc else writeSeg acc (c * frms) (g c)) init)
              (g c0) (c0 * frms)
              (by rw [hfoldlen, hgk]
                  calc c0 * frms + frms = (c0 + 1) * frms := by ring
                    _ ≤ nC * frms := Nat.mul_le_mul_right frms (by omega))
          rw [hgk] at this
          rw [this]
          simp [hck]
        · rw [seg_writeSeg_after _ _ _ _ _
            (by rw [hg k (by omega) hck]
                calc k * frms + frms = (k + 1) * frms := by ring
                  _ ≤ c0 * frms := Nat.mul_le_mul_right frms hgt)
            (by rw [hfoldlen, hg k (by omega) hck]
                calc k * frms + frms = (k + 1) * frms := by ring
                  _ ≤ nC * frms := Nat.mul_le_mul_right frms (by omega))]
          rw [ih init (by omega) hlen c0 hc0]
          have : (c0 < k + 1 ∧ ¬cc c0 = -1) ↔ (c0 < k ∧ ¬cc c0 = -1) := by
            constructor
            · rintro ⟨h1, h2⟩; exact ⟨by omega, h2⟩
            · rintro ⟨h1, h2⟩; exact ⟨by omega, h2⟩
          simp only [this]

/-- Reading the `i`-th frame-run out of a concatenation of equal-length
frame runs. -/
theorem seg_flatten_blocks (frms : Nat) :
    ∀ (bs : List (List Sample)) (i : Nat), (∀ b ∈ bs, b.length = frms) → i < bs.length →
      seg bs.flatten (i * frms) frms = bs.getD i [] := by
  intro bs
  induction bs with
  | nil => intro i _ hi; simp at hi
  | cons b rest ih =>
      intro i hb hi
      match i with
      | 0 =>
          simp only [List.flatten_cons, seg, Nat.zero_mul, List.drop_zero, List.getD_cons_zero]
          rw [List.take_append_of_le_length (by rw [hb b (by simp)]),
            List.take_of_length_le (by rw [hb b (by simp)])]
      | i + 1 =>
          simp only [List.flatten_cons, seg, List.getD_cons_succ]
          have hblen : b.length = frms := hb b (by simp)
          have : (i + 1) * frms = b.length + i * frms := by rw [hblen]; ring
          rw [this, List.drop_append]
          exact ih i (fun x hx => hb x (by simp [hx])) (by simpa using hi)

/-! Helper lemmas about `lastIdx?` and the `newCmap` fill loop. -/

theorem lastIdx?_lt_length {cs : List Nat} {c j : Nat} (h : lastIdx? cs c = some j) :
    j < cs.length := by
  induction cs generalizing j with
  | nil => simp [lastIdx?] at h
  | cons c0 rest ih =>
      rw [lastIdx?] at h
      cases hrest : lastIdx? rest c with
      | some j' =>
          rw [hrest] at h
          have hj : j = j' + 1 := by simpa using h.symm
          subst hj
          have := ih hrest
          simp
          omega
      | none =>
          rw [hrest] at h
          by_cases hc : c0 = c
          · simp [hc] at h
            simp [← h]
          · simp [hc] at h

theorem lastIdx?_getD {cs : List Nat} {c j : Nat} (h : lastIdx? cs c = some j) :
    cs.getD j 0 = c := by
  induction cs generalizing j with
  | nil => simp [lastIdx?] at h
  | cons c0 rest ih =>
      rw [lastIdx?] at h
      cases hrest : lastIdx? rest c with
      | some j' =>
          rw [hrest] at h
          have hj : j = j' + 1 := by simpa using h.symm
          subst hj
          simpa using ih hrest
      | none =>
          rw [hrest] at h
          by_cases hc : c0 = c
          · simp [hc] at h
            simp [← h, hc]
          · simp [hc] at h

theorem lastIdx?_isSome_of_mem {cs : List Nat} {c : Nat} (h : c ∈ cs) :
    ∃ j, lastIdx? cs c = some j := by
  induction cs with
  | nil => simp at h
  | cons c0 rest ih =>
      rw [List.mem_cons] at h
      cases hrest : lastIdx? rest c with
      | some j => exact ⟨j + 1, by rw [lastIdx?, hrest]⟩
      | none =>
          rcases h with h | h
          · exact ⟨0, by rw [lastIdx?, hrest]; simp [h.symm]⟩
          · rcases ih h with ⟨j, hj⟩
            rw [hj] at hrest
            simp at hrest

theorem lastIdx?_eq_none_of_not_mem {cs : List Nat} {c : Nat} (h : c ∉ cs) :
    lastIdx? cs c = none := by
  induction cs with
  | nil => rfl
  | cons c0 rest ih =>
      rw [List.mem_cons] at h
      push_neg at h
      rw [lastIdx?, ih h.2]
      simp [Ne.symm h.1]

theorem lastIdx?_of_lastOcc {cs : List Nat} {c j : Nat} (hj : j < cs.length)
    (hc : cs.getD j 0 = c) (hlast : ∀ k, j < k → k < cs.length → cs.getD k 0 ≠ c) :
    lastIdx? cs c = some j := by
  induction cs generalizing j with
  | nil => simp at hj
  | cons c0 rest ih =>
      match j with
      | 0 =>
          have hc0 : c0 = c := by simpa using hc
          have hnone : lastIdx? rest c = none := by
            apply lastIdx?_eq_none_of_not_mem
            intro hmem
            rcases List.getElem_of_mem hmem with ⟨k, hk, hkc⟩
            exact hlast (k + 1) (by omega) (by simpa using hk)
              (by simpa [List.getD_eq_getElem?_getD, List.getElem?_eq_getElem hk] using hkc)
          rw [lastIdx?, hnone]
          simp [hc0]
      | j + 1 =>
          have hrest : lastIdx? rest c = some j := by
            apply ih (by simpa using hj) (by simpa using hc)
            intro k hk1 hk2
            have := hlast (k + 1) (by omega) (by simpa using hk2)
            simpa using this
          rw [lastIdx?, hrest]

theorem cmapFill_fst_length : ∀ (cs : List Nat) (m i : List Int) (idx : Nat),
    ((cmapFill m i idx cs).1).length = m.length := by
  intro cs
  induction cs with
  | nil => intro m i idx; rfl
  | cons c rest ih =>
      intro m i idx
      rw [cmapFill, ih]
      simp

theorem cmapFill_snd_eq : ∀ (cs : List Nat) (m i : List Int) (idx : Nat),
    idx + cs.length ≤ i.length →
    (cmapFill m i idx cs).2 = i.take idx ++ cs.map Int.ofNat ++ i.drop (idx + cs.length) := by
  intro cs
  induction cs with
  | nil =>
      intro m i idx h
      simp only [cmapFill, List.map_nil, List.append_nil, List.length_nil, Nat.add_zero]
      rw [List.take_append_drop]
  | cons c rest ih =>
      intro m i idx h
      have hidx : idx < i.length := by simp at h; omega
      rw [cmapFill, ih _ _ _ (by simp at h ⊢; omega)]
      have hset : i.set idx (Int.ofNat c) = i.take idx ++ Int.ofNat c :: i.drop (idx + 1) :=
        List.set_eq_take_cons_drop _ hidx
      have htakelen : (i.take idx).length = idx := by rw [List.length_take]; omega
      have htake : (i.set idx (Int.ofNat c)).take (idx + 1) = i.take idx ++ [Int.ofNat c] := by
        rw [hset, List.take_append_eq_append_take,
          List.take_of_length_le (by rw [htakelen]; omega), htakelen]
        simp
      have hdrop : (i.set idx (Int.ofNat c)).drop (idx + 1 + rest.length)
          = i.drop (idx + (rest.length + 1)) := by
        rw [hset, List.drop_append_eq_append_drop,
          List.drop_eq_nil_of_le (by rw [htakelen]; omega), htakelen, List.nil_append]
        rw [show idx + 1 + rest.length - idx = rest.length + 1 by omega]
        rw [List.drop_succ_cons, List.drop_drop]
        congr 1
        omega
      rw [htake, hdrop]
      simp [List.append_assoc]

theorem cmapFill_fst_getD_none : ∀ (cs : List Nat) (m i : List Int) (idx : Nat)
    (c : Nat) (d : Int), lastIdx? cs c = none →
    ((cmapFill m i idx cs).1).getD c d = m.getD c d := by
  intro cs
  induction cs with
  | nil => intro m i idx c d _; rfl
  | cons c0 rest ih =>
      intro m i idx c d h
      rw [lastIdx?] at h
      cases hrest : lastIdx? rest c with
      | some j => rw [hrest] at h; simp at h
      | none =>
          rw [hrest] at h
          by_cases hc : c0 = c
          · simp [hc] at h
          · rw [cmapFill, ih _ _ _ _ _ hrest]
            exact getD_set_ne _ _ _ _ _ hc

theorem cmapFill_fst_getD_some : ∀ (cs : List Nat) (m i : List Int) (idx : Nat)
    (c j : Nat) (d : Int), (∀ x ∈ cs, x < m.length) → lastIdx? cs c = some j →
    ((cmapFill m i idx cs).1).getD c d = Int.ofNat (idx + j) := by
  intro cs
  induction cs with
  | nil => intro m i idx c j d _ h; simp [lastIdx?] at h
  | cons c0 rest ih =>
      intro m i idx c j d hm h
      rw [lastIdx?] at h
      cases hrest : lastIdx? rest c with
      | some j' =>
          rw [hrest] at h
          have hj : j = j' + 1 := by simpa using h.symm
          subst hj
          rw [cmapFill, ih _ _ _ _ _ _ (by
            intro x hx
            have := hm x (by simp [hx])
            simpa using this) hrest]
          congr 1
          omega
      | none =>
          rw [hrest] at h
          by_cases hc : c0 = c
          · have hj : j = 0 := by simp [hc] at h; omega
            subst hj
            subst hc
            rw [cmapFill, cmapFill_fst_getD_none _ _ _ _ _ _ hrest]
            rw [getD_set_self _ _ _ _ (hm c0 (by simp))]
            simp
          · simp [hc] at h

theorem getD_replicate_neg (n c : Nat) (d : Int) (h : c < n) :
    (List.replicate n (-1 : Int)).getD c d = -1 := by
  simp [List.getD_eq_getElem?_getD, List.getElem?_replicate, h]

theorem newCmap_i (v : Form) (cs : List Nat) (hne : cs ≠ []) :
    (newCmap v cs).i = cs.map Int.ofNat := by
  rw [newCmap]
  rw [if_neg (by simpa using hne)]
  rw [cmapFill_snd_eq _ _ _ _ (by simp)]
  simp

theorem newCmap_m_length (v : Form) (cs : List Nat) (hne : cs ≠ []) :
    (newCmap v cs).m.length = v.channels := by
  rw [newCmap]
  rw [if_neg (by simpa using hne)]
  rw [cmapFill_fst_length]
  simp

theorem newCmap_m_getD_none (v : Form) (cs : List Nat) (hne : cs ≠ []) (c : Nat) (d : Int)
    (hc : c < v.channels) (h : lastIdx? cs c = none) :
    (newCmap v cs).m.getD c d = -1 := by
  rw [newCmap]
  rw [if_neg (by simpa using hne)]
  rw [cmapFill_fst_getD_none _ _ _ _ _ _ h]
  exact getD_replicate_neg _ _ _ hc

theorem newCmap_m_getD_some (v : Form) (cs : List Nat) (hne : cs ≠ [])
    (hlt : ∀ x ∈ cs, x < v.channels) (c j : Nat) (d : Int) (h : lastIdx? cs c = some j) :
    (newCmap v cs).m.getD c d = Int.ofNat j := by
  rw [newCmap]
  rw [if_neg (by simpa using hne)]
  rw [cmapFill_fst_getD_some _ _ _ _ _ _ _ (by simpa using hlt) h]
  simp

theorem getD_map_ofNat (cs : List Nat) (cc : Nat) (d : Int) (h : cc < cs.length) :
    (cs.map Int.ofNat).getD cc d = Int.ofNat (cs.getD cc 0) := by
  simp [List.getD_eq_getElem?_getD, List.getElem?_map,
    List.getElem?_eq_getElem h, List.getElem?_eq_getElem (by simpa using h : cc < cs.length)]

/-! Helper lemmas about the counter scans, counter updates and `buffer`. -/

theorem firstPos_eq_none_iff (l : List Nat) :
    firstPos l = none ↔ ∀ i, i < l.length → l.getD i 0 = 0 := by
  induction l with
  | nil => simp [firstPos]
  | cons ct rest ih =>
      rw [firstPos]
      by_cases h : ct > 0
      · rw [if_pos h]
        constructor
        · intro hnone; simp at hnone
        · intro hall
          have := hall 0 (by simp)
          simp at this
          omega
      · rw [if_neg h]
        constructor
        · intro hnone i hi
          match i with
          | 0 => simpa using (by omega : ct = 0)
          | i + 1 =>
              have : firstPos rest = none := by
                cases hfp : firstPos rest with
                | none => rfl
                | some j => rw [hfp] at hnone; simp at hnone
              exact (ih.mp this) i (by simpa using hi)
        · intro hall
          have : firstPos rest = none := by
            apply ih.mpr
            intro i hi
            simpa using hall (i + 1) (by simpa using hi)
          rw [this]
          rfl

theorem firstZero_eq_none_iff (l : List Nat) :
    firstZero l = none ↔ ∀ i, i < l.length → l.getD i 0 ≠ 0 := by
  induction l with
  | nil => simp [firstZero]
  | cons ct rest ih =>
      rw [firstZero]
      by_cases h : ct = 0
      · rw [if_pos h]
        constructor
        · intro hnone; simp at hnone
        · intro hall
          have := hall 0 (by simp)
          simp [h] at this
      · rw [if_neg h]
        constructor
        · intro hnone i hi
          match i with
          | 0 => simpa using h
          | i + 1 =>
              have : firstZero rest = none := by
                cases hfp : firstZero rest with
                | none => rfl
                | some j => rw [hfp] at hnone; simp at hnone
              exact (ih.mp this) i (by simpa using hi)
        · intro hall
          have : firstZero rest = none := by
            apply ih.mpr
            intro i hi
            simpa using hall (i + 1) (by simpa using hi)
          rw [this]
          rfl

theorem foldl_set_one_getD : ∀ (cs : List Nat) (counts : List Nat) (c : Nat),
    c < counts.length →
    (cs.foldl (fun acc x => acc.set x 1) counts).getD c 0
      = if c ∈ cs then 1 else counts.getD c 0 := by
  intro cs
  induction cs with
  | nil => intro counts c h; simp
  | cons x rest ih =>
      intro counts c h
      simp only [List.foldl_cons]
      rw [ih (counts.set x 1) c (by simpa using h)]
      by_cases hcr : c ∈ rest
      · simp [hcr]
      · by_cases hxc : x = c
        · subst hxc
          rw [getD_set_self _ _ _ _ h]
          simp [hcr]
        · rw [getD_set_ne _ _ _ _ _ hxc]
          have hcx : ¬(c = x) := fun hh => hxc hh.symm
          simp [List.mem_cons, hcr, hcx]

theorem buffer_len (d : Slice) (c f : Nat) : (buffer d c f).len = c * f := by
  rw [buffer]
  split <;> rfl

theorem view_length_le_cap (d : Slice) : d.view.length ≤ d.cap := by
  rw [Slice.view, Slice.cap, List.length_take]
  omega

theorem le_five_thirds (N : Nat) : N ≤ 5 * N / 3 := by
  rw [Nat.le_div_iff_mul_le (by norm_num)]
  omega

theorem buffer_cap_ge (d : Slice) (c f : Nat) : c * f ≤ (buffer d c f).cap := by
  rw [buffer]
  split
  · next h =>
      show c * f ≤ (d.view ++ List.replicate (5 * (c * f) / 3 - d.view.length) 0).length
      rw [List.length_append, List.length_replicate]
      have h1 : d.view.length ≤ d.cap := view_length_le_cap d
      have h2 : c * f ≤ 5 * (c * f) / 3 := le_five_thirds (c * f)
      rw [Slice.cap] at h h1
      omega
  · next h =>
      show c * f ≤ d.arr.length
      rw [Slice.cap] at h
      omega

theorem buffer_of_ge (d : Slice) (c f : Nat) (hge : c * f ≤ d.cap) :
    buffer d c f = { arr := d.arr, len := c * f } := by
  rw [buffer]
  split
  · next hcond => exact absurd hcond (by omega)
  · rfl

theorem buffer_of_lt (d : Slice) (c f : Nat) (hlt : d.cap < c * f) :
    buffer d c f
      = { arr := d.view ++ List.replicate (5 * (c * f) / 3 - d.view.length) 0
          len := c * f } := by
  rw [buffer]
  split
  · rfl
  · next hcond => exact absurd hlt hcond

theorem buffer_view_length (d : Slice) (c f : Nat) : (buffer d c f).view.length = c * f := by
  rw [Slice.view, List.length_take, buffer_len]
  have := buffer_cap_ge d c f
  rw [Slice.cap] at this
  omega

theorem seg_length_of_inRange (l : List Sample) (s n : Nat) (h : s + n ≤ l.length) :
    (seg l s n).length = n := by
  rw [seg, List.length_take, List.length_drop]
  omega

theorem ofNat_toNat (n : Nat) : (Int.ofNat n).toNat = n := rfl

/-- What `packet.get` computes: the local buffer's view afterwards is the
concatenation of the inverse-mapped frame-runs of the source block. -/
theorem get_spec (p : Packet) (src : Block) (L : Nat)
    (hi : p.cmap.i.length = L)
    (hlen : ∀ cc, cc < L →
      (p.cmap.imapC cc).toNat * src.frames + src.frames ≤ src.samples.length) :
    ((p.get src).samples.view
      = ((List.range L).map (fun cc =>
          seg src.samples ((p.cmap.imapC cc).toNat * src.frames) src.frames)).flatten)
  ∧ (p.get src).samples.len = L * src.frames
  ∧ (p.get src).n = src.frames
  ∧ (p.get src).cmap = p.cmap := by
  have hbl : (buffer p.samples L src.frames).len = L * src.frames := buffer_len _ _ _
  have hbv : (buffer p.samples L src.frames).view.length = L * src.frames :=
    buffer_view_length _ _ _
  have hf : ∀ j, j < L → ((fun cc =>
      seg src.samples ((p.cmap.imapC cc).toNat * src.frames) src.frames) j).length
        = src.frames := fun j hj => seg_length_of_inRange _ _ _ (hlen j hj)
  have htile := foldl_writeSeg_tile src.frames
    (fun cc => seg src.samples ((p.cmap.imapC cc).toNat * src.frames) src.frames)
    L (buffer p.samples L src.frames).view (le_of_eq hbv.symm) hf
  rw [show (buffer p.samples L src.frames).view.drop (L * src.frames) = [] from by
      rw [← hbv]; exact List.drop_length _,
    List.append_nil] at htile
  have hflatlen : (((List.range L).map (fun cc =>
      seg src.samples ((p.cmap.imapC cc).toNat * src.frames) src.frames)).flatten).length
        = L * src.frames := length_flatten_tile _ _ _ hf
  simp only [Packet.get, hi]
  refine ⟨?_, ?_, by trivial, by trivial⟩
  · show ((List.range L).foldl _ (buffer p.samples L src.frames).view
        ++ (buffer p.samples L src.frames).arr.drop (buffer p.samples L src.frames).len).take
        (buffer p.samples L src.frames).len = _
    rw [htile, hbl, List.take_left' hflatlen]
  · show (buffer p.samples L src.frames).len = L * src.frames
    exact hbl

/-- What `packet.put` computes: each destination frame-run either
receives the forward-mapped run of the packet's local buffer or is left
untouched. -/
theorem put_spec (p : Packet) (dst : Block)
    (hds : dst.samples.length = dst.channels * p.n)
    (hg : ∀ c, c < dst.channels → ¬(p.cmap.mapC c = -1) →
        (p.cmap.mapC c).toNat * p.n + p.n ≤ p.samples.view.length) :
    (p.put dst).2 = p.n
  ∧ (p.put dst).1.channels = dst.channels
  ∧ ∀ c0, c0 < dst.channels →
      seg (p.put dst).1.samples (c0 * p.n) p.n
        = if ¬(p.cmap.mapC c0 = -1)
          then seg p.samples.view ((p.cmap.mapC c0).toNat * p.n) p.n
          else seg dst.samples (c0 * p.n) p.n := by
  refine ⟨rfl, rfl, ?_⟩
  intro c0 hc0
  have := foldl_writeSeg_skip_seg (fun c => p.cmap.mapC c)
    (fun c => seg p.samples.view ((p.cmap.mapC c).toNat * p.n) p.n) p.n dst.channels
    (fun c hc hcc => seg_length_of_inRange _ _ _ (hg c hc hcc))
    dst.channels dst.samples (Nat.le_refl _) hds c0 hc0
  show seg ((List.range dst.channels).foldl _ dst.samples) (c0 * p.n) p.n = _
  rw [this]
  by_cases hcc : p.cmap.mapC c0 = -1
  · simp [hcc]
  · simp [hcc, hc0]

/-- Claim C2: for every non-empty channel selection `cs` with unique
in-range values over the node channel count `v.channels`, and every
source block holding `channels × frames` samples in deinterleaved
layout, running `packet.get` from that block and then `packet.put` into
a destination block of the same channel and frame counts reproduces, for
each selected channel, the original frame-run of that channel
exactly. -/
theorem C2_roundtrip (v : Form) (cs : List Nat) (q : Packet) (src dst : Block)
    (hne : cs ≠ []) (hnd : cs.Nodup) (hlt : ∀ c ∈ cs, c < v.channels)
    (hsc : src.channels = v.channels) (hdc : dst.channels = v.channels)
    (hss : src.samples.length = v.channels * src.frames)
    (hds : dst.samples.length = v.channels * src.frames) :
    (((Packet.init q v cs).get src).put dst).2 = src.frames
  ∧ ∀ c ∈ cs,
      seg ((((Packet.init q v cs).get src).put dst).1.samples) (c * src.frames) src.frames
        = seg src.samples (c * src.frames) src.frames := by
  set p0 := Packet.init q v cs with hp0
  have hcm : p0.cmap = newCmap v cs := rfl
  have hiL : p0.cmap.i.length = cs.length := by
    rw [hcm, newCmap_i v cs hne, List.length_map]
  have hgetD_lt : ∀ j, j < cs.length → cs.getD j 0 < v.channels := by
    intro j hj
    apply hlt
    have h1 : cs.getD j 0 = cs[j] := by
      simp [List.getD_eq_getElem?_getD, List.getElem?_eq_getElem hj]
    exact List.mem_iff_getElem.mpr ⟨j, hj, h1.symm⟩
  have himap : ∀ cc, cc < cs.length → p0.cmap.imapC cc = Int.ofNat (cs.getD cc 0) := by
    intro cc hcc
    rw [hcm, Cmap.imapC, newCmap_i v cs hne, getD_map_ofNat _ _ _ hcc]
  have hlenf : ∀ cc, cc < cs.length →
      (p0.cmap.imapC cc).toNat * src.frames + src.frames ≤ src.samples.length := by
    intro cc hcc
    rw [himap cc hcc]
    simp only [ofNat_toNat]
    have h1 : cs.getD cc 0 < v.channels := hgetD_lt cc hcc
    rw [hss]
    calc cs.getD cc 0 * src.frames + src.frames = (cs.getD cc 0 + 1) * src.frames := by ring
      _ ≤ v.channels * src.frames := Nat.mul_le_mul_right _ (by omega)
  obtain ⟨hview, hslen, hn, hcm1⟩ := get_spec p0 src cs.length hiL hlenf
  set p1 := p0.get src with hp1
  have hf : ∀ j, j < cs.length → ((fun cc =>
      seg src.samples ((p0.cmap.imapC cc).toNat * src.frames) src.frames) j).length
        = src.frames := fun j hj => seg_length_of_inRange _ _ _ (hlenf j hj)
  have hviewlen : p1.samples.view.length = cs.length * src.frames := by
    rw [hview]
    exact length_flatten_tile _ _ _ hf
  have hds' : dst.samples.length = dst.channels * p1.n := by rw [hn, hdc, hds]
  have hmapC_some : ∀ c j, lastIdx? cs c = some j → p1.cmap.mapC c = Int.ofNat j := by
    intro c j hj
    rw [hcm1, hcm, Cmap.mapC]
    exact newCmap_m_getD_some v cs hne hlt c j _ hj
  have hmapC_bound : ∀ c, c < dst.channels → ¬(p1.cmap.mapC c = -1) →
      (p1.cmap.mapC c).toNat * p1.n + p1.n ≤ p1.samples.view.length := by
    intro c hc hne1
    cases hli : lastIdx? cs c with
    | none =>
        exfalso
        apply hne1
        rw [hcm1, hcm, Cmap.mapC]
        exact newCmap_m_getD_none v cs hne c _ (by rw [hdc] at hc; exact hc) hli
    | some j =>
        rw [hmapC_some c j hli]
        simp only [ofNat_toNat]
        have hjL : j < cs.length := lastIdx?_lt_length hli
        rw [hviewlen, hn]
        calc j * src.frames + src.frames = (j + 1) * src.frames := by ring
          _ ≤ cs.length * src.frames := Nat.mul_le_mul_right _ (by omega)
  obtain ⟨hput2, hputch, hputseg⟩ := put_spec p1 dst hds' hmapC_bound
  constructor
  · rw [hput2, hn]
  · intro c hcmem
    have hcch : c < v.channels := hlt c hcmem
    obtain ⟨j, hj⟩ := lastIdx?_isSome_of_mem hcmem
    have hmc : p1.cmap.mapC c = Int.ofNat j := hmapC_some c j hj
    have hjL : j < cs.length := lastIdx?_lt_length hj
    have hne1 : ¬(p1.cmap.mapC c = -1) := by
      rw [hmc]
      intro hcontra
      have h0 : ((j : Int)) = -1 := hcontra
      omega
    have hthis := hputseg c (by rw [hdc]; exact hcch)
    rw [hn, if_pos hne1] at hthis
    rw [hthis, hmc]
    simp only [ofNat_toNat]
    rw [hview]
    rw [seg_flatten_blocks src.frames _ j
      (by
        intro b hb
        obtain ⟨cc, hcc, hb2⟩ := List.mem_map.mp hb
        rw [← hb2]
        exact hf cc (List.mem_range.mp hcc))
      (by rw [List.length_map, List.length_range]; exact hjL)]
    have hgd : ((List.range cs.length).map (fun cc =>
        seg src.samples ((p0.cmap.imapC cc).toNat * src.frames) src.frames)).getD j []
          = seg src.samples ((p0.cmap.imapC j).toNat * src.frames) src.frames := by
      simp [List.getD_eq_getElem?_getD, List.getElem?_map, List.getElem?_range, hjL]
    rw [hgd, himap j hjL]
    simp only [ofNat_toNat]
    rw [lastIdx?_getD hj]

/-- Claim C2 witness: the round-trip theorem applied at node channel
count 3, selection `[2, 0]`, two frames. -/
theorem C2_roundtrip_witness :
    ((((Packet.init ⟨none, 0, ⟨[], 0⟩, ⟨[], []⟩, 0, false⟩ ⟨44100, 3⟩ [2, 0]).get
        ⟨[1, 2, 3, 4, 5, 6], 2, 3, 44100⟩).put ⟨[9, 9, 9, 9, 9, 9], 2, 3, 44100⟩).2 = 2)
  ∧ ∀ c ∈ [2, 0],
      seg ((((Packet.init ⟨none, 0, ⟨[], 0⟩, ⟨[], []⟩, 0, false⟩ ⟨44100, 3⟩ [2, 0]).get
          ⟨[1, 2, 3, 4, 5, 6], 2, 3, 44100⟩).put ⟨[9, 9, 9, 9, 9, 9], 2, 3, 44100⟩).1.samples)
        (c * 2) 2
        = seg [1, 2, 3, 4, 5, 6] (c * 2) 2 :=
  C2_roundtrip ⟨44100, 3⟩ [2, 0] ⟨none, 0, ⟨[], 0⟩, ⟨[], []⟩, 0, false⟩
    ⟨[1, 2, 3, 4, 5, 6], 2, 3, 44100⟩ ⟨[9, 9, 9, 9, 9, 9], 2, 3, 44100⟩
    (by decide) (by decide) (by decide) (by decide) (by decide) (by decide) (by decide)

/-- Claim C9: with an empty selection `newCmap` builds identity forward
and inverse tables of length `nodeChannelCount`; with a non-empty
selection of length `L` (values in range) the inverse table is exactly
the selection, the forward table has length `nodeChannelCount`, is `-1`
on every channel not occurring in the selection, and maps `cs[j]` to `j`
with the last occurrence winning on duplicates. -/
theorem C9_newCmap_spec (v : Form) (cs : List Nat) (hne : cs ≠ [])
    (hlt : ∀ c ∈ cs, c < v.channels) :
    ((newCmap v []).m = (List.range v.channels).map Int.ofNat
      ∧ (newCmap v []).i = (List.range v.channels).map Int.ofNat)
  ∧ (newCmap v cs).i = cs.map Int.ofNat
  ∧ (newCmap v cs).m.length = v.channels
  ∧ (∀ c, c < v.channels → c ∉ cs → (newCmap v cs).m.getD c 0 = -1)
  ∧ (∀ j, j < cs.length →
      (∀ k, j < k → k < cs.length → cs.getD k 0 ≠ cs.getD j 0) →
      (newCmap v cs).m.getD (cs.getD j 0) 0 = Int.ofNat j) := by
  refine ⟨⟨rfl, rfl⟩, newCmap_i v cs hne, newCmap_m_length v cs hne, ?_, ?_⟩
  · intro c hc hmem
    exact newCmap_m_getD_none v cs hne c 0 hc (lastIdx?_eq_none_of_not_mem hmem)
  · intro j hj hlast
    exact newCmap_m_getD_some v cs hne hlt _ j 0 (lastIdx?_of_lastOcc hj rfl hlast)

/-- Claim C9 witness: `newCmap` at node channel count 3 with selection
`[2, 0, 0]` (a duplicate, exercising last-write-wins). -/
theorem C9_newCmap_spec_witness :
    ((newCmap ⟨1, 3⟩ []).m = (List.range 3).map Int.ofNat
      ∧ (newCmap ⟨1, 3⟩ []).i = (List.range 3).map Int.ofNat)
  ∧ (newCmap ⟨1, 3⟩ [2, 0, 0]).i = [2, 0, 0].map Int.ofNat
  ∧ (newCmap ⟨1, 3⟩ [2, 0, 0]).m.length = 3
  ∧ (∀ c, c < 3 → c ∉ [2, 0, 0] → (newCmap ⟨1, 3⟩ [2, 0, 0]).m.getD c 0 = -1)
  ∧ (∀ j, j < [2, 0, 0].length →
      (∀ k, j < k → k < [2, 0, 0].length → [2, 0, 0].getD k 0 ≠ [2, 0, 0].getD j 0) →
      (newCmap ⟨1, 3⟩ [2, 0, 0]).m.getD ([2, 0, 0].getD j 0) 0 = Int.ofNat j) :=
  C9_newCmap_spec ⟨1, 3⟩ [2, 0, 0] (by decide) (by decide)

/-- Claim C8 counterexample: at `N = 1` (one channel, one frame) and an
empty buffer the code reallocates to `(5*1)/3 = 1` element, not the
claimed `⌈5*1/3⌉ = 2`. -/
theorem C8_growth_counterexample :
    Slice.cap ⟨[], 0⟩ < 1 * 1
  ∧ (buffer ⟨[], 0⟩ 1 1).cap = 1
  ∧ (5 * (1 * 1) + 3 - 1) / 3 = 2 := by decide

/-- Claim C8 (amended): when the capacity suffices, `buffer` returns the
same backing array trimmed to exactly `N = c*f` elements; when it does
not, it reallocates to `⌊5N/3⌋` elements (Go floor division, not the
ceiling the claim states), copies the old contents forward preserving
previously valid values at their positions, returns a view of exactly
`N` elements, and a later call with the same `N` does not reallocate
again. -/
theorem C8_buffer_spec (d : Slice) (c f : Nat) (h : d.len ≤ d.cap) :
    (c * f ≤ d.cap → (buffer d c f).arr = d.arr ∧ (buffer d c f).len = c * f)
  ∧ (d.cap < c * f →
      (buffer d c f).cap = 5 * (c * f) / 3
      ∧ (buffer d c f).len = c * f
      ∧ (buffer d c f).view.take d.len = d.view
      ∧ (buffer (buffer d c f) c f).arr = (buffer d c f).arr) := by
  have hvl : d.view.length = d.len := by
    rw [Slice.view, List.length_take]
    rw [Slice.cap] at h
    omega
  have h53 : c * f ≤ 5 * (c * f) / 3 := le_five_thirds (c * f)
  constructor
  · intro hge
    rw [buffer_of_ge d c f hge]
    exact ⟨rfl, rfl⟩
  · intro hlt
    have harr : (buffer d c f).arr
        = d.view ++ List.replicate (5 * (c * f) / 3 - d.view.length) 0 := by
      rw [buffer_of_lt d c f hlt]
    have hlen : (buffer d c f).len = c * f := buffer_len d c f
    have hcap : (buffer d c f).cap = 5 * (c * f) / 3 := by
      rw [Slice.cap, harr, List.length_append, List.length_replicate, hvl]
      rw [Slice.cap] at hlt h
      omega
    refine ⟨hcap, hlen, ?_, ?_⟩
    · rw [Slice.view, harr, hlen]
      rw [List.take_take, show min d.len (c * f) = d.len from by
        rw [Slice.cap] at hlt h; omega]
      rw [List.take_append_of_le_length (by rw [hvl]),
        List.take_of_length_le (by rw [hvl])]
    · rw [buffer_of_ge (buffer d c f) c f (by rw [hcap]; exact h53)]

/-- Claim C8 witness: the buffer specification applied to a one-element
slice grown to 6 required elements (reallocating to 10). -/
theorem C8_buffer_spec_witness :
    (2 * 3 ≤ Slice.cap ⟨[7], 1⟩ →
      (buffer ⟨[7], 1⟩ 2 3).arr = (⟨[7], 1⟩ : Slice).arr
      ∧ (buffer ⟨[7], 1⟩ 2 3).len = 2 * 3)
  ∧ (Slice.cap ⟨[7], 1⟩ < 2 * 3 →
      (buffer ⟨[7], 1⟩ 2 3).cap = 5 * (2 * 3) / 3
      ∧ (buffer ⟨[7], 1⟩ 2 3).len = 2 * 3
      ∧ (buffer ⟨[7], 1⟩ 2 3).view.take (⟨[7], 1⟩ : Slice).len = Slice.view ⟨[7], 1⟩
      ∧ (buffer (buffer ⟨[7], 1⟩ 2 3) 2 3).arr = (buffer ⟨[7], 1⟩ 2 3).arr) :=
  C8_buffer_spec ⟨[7], 1⟩ 2 3 (by decide)

/-- Claim C3 counterexample: on a fresh 3-input-channel node, `SetInput`
with the duplicate selection `[0, 0]` succeeds — the uniqueness check
reads all the counters before any is written, so duplicate indices
within one call are not rejected. -/
theorem C3_counterexample :
    ((New ⟨44100, 3⟩ ⟨44100, 3⟩).SetInput ⟨44100, 1⟩ [0, 0]).2 = none := by decide

/-- Claim C3 (amended): claiming an input channel whose claim counter is
already positive — whether via an earlier `SetInput` with a selection or
with no selection — makes `SetInput` return a non-nil error and leaves
the whole node (in particular its claim counters) unchanged; but
duplicate indices within a single call's selection over unclaimed
channels are not rejected: the call succeeds and sets each listed
channel's counter to 1. -/
theorem C3_setInput_spec (n : Node) (r : Form)
    (hr : r.sampleRate = n.iForm.sampleRate) :
    (∀ cs c, c ∈ cs → n.icCounts.getD c 0 > 0 → ∃ e, n.SetInput r cs = (n, some e))
  ∧ (∀ c, c < n.icCounts.length → n.icCounts.getD c 0 > 0 →
      ∃ e, n.SetInput r [] = (n, some e))
  ∧ (∀ cs, cs ≠ [] → (∀ c ∈ cs, c < n.icCounts.length) →
      (∀ c ∈ cs, n.icCounts.getD c 0 = 0) →
      (n.SetInput r cs).2 = none
      ∧ ∀ c ∈ cs, (n.SetInput r cs).1.icCounts.getD c 0 = 1) := by
  have hrate : ¬(r.sampleRate ≠ n.iForm.sampleRate) := by simp [hr]
  refine ⟨?_, ?_, ?_⟩
  · intro cs c hc hpos
    have hcs : ¬cs.isEmpty = true := by
      cases cs
      · simp at hc
      · simp
    have hfind : (cs.find? (fun c => n.icCounts.getD c 0 > 0)).isSome := by
      rw [List.find?_isSome]
      exact ⟨c, hc, by simpa using hpos⟩
    obtain ⟨c', hc'⟩ := Option.isSome_iff_exists.mp hfind
    refine ⟨.alreadyInput c', ?_⟩
    have hck : n.ckInputsUnique cs = (n, some (.alreadyInput c')) := by
      rw [Node.ckInputsUnique, if_neg hcs, hc']
    rw [Node.SetInput, if_neg hrate, hck]
  · intro c hc hpos
    cases hfp : firstPos n.icCounts with
    | none =>
        exact absurd ((firstPos_eq_none_iff _).mp hfp c hc) (by omega)
    | some j =>
        refine ⟨.alreadyInput j, ?_⟩
        have hck : n.ckInputsUnique [] = (n, some (.alreadyInput j)) := by
          rw [Node.ckInputsUnique, if_pos List.isEmpty_nil, hfp]
        rw [Node.SetInput, if_neg hrate, hck]
  · intro cs hne hlt hzero
    have hcs : ¬cs.isEmpty = true := by
      cases cs
      · exact absurd rfl hne
      · simp
    have hfind : cs.find? (fun c => n.icCounts.getD c 0 > 0) = none := by
      rw [List.find?_eq_none]
      intro x hx
      have hz := hzero x hx
      simp only [decide_eq_true_eq]
      omega
    have hck : n.ckInputsUnique cs
        = ({ n with icCounts := cs.foldl (fun acc c => acc.set c 1) n.icCounts }, none) := by
      rw [Node.ckInputsUnique, if_neg hcs, hfind]
    constructor
    · rw [Node.SetInput, if_neg hrate, hck]
    · intro c hc
      rw [Node.SetInput, if_neg hrate, hck]
      show (cs.foldl (fun acc c => acc.set c 1) n.icCounts).getD c 0 = 1
      rw [foldl_set_one_getD cs n.icCounts c (hlt c hc)]
      simp [hc]

/-- Claim C3 witness: on a fresh two-channel node, duplicate selection
`[1, 1]` succeeds setting channel 1's counter, and every
claimed-channel re-claim errors. -/
theorem C3_setInput_spec_witness :
    (∀ cs c, c ∈ cs → (New ⟨44100, 2⟩ ⟨44100, 2⟩).icCounts.getD c 0 > 0 →
      ∃ e, (New ⟨44100, 2⟩ ⟨44100, 2⟩).SetInput ⟨44100, 2⟩ cs
        = (New ⟨44100, 2⟩ ⟨44100, 2⟩, some e))
  ∧ (∀ c, c < (New ⟨44100, 2⟩ ⟨44100, 2⟩).icCounts.length →
      (New ⟨44100, 2⟩ ⟨44100, 2⟩).icCounts.getD c 0 > 0 →
      ∃ e, (New ⟨44100, 2⟩ ⟨44100, 2⟩).SetInput ⟨44100, 2⟩ []
        = (New ⟨44100, 2⟩ ⟨44100, 2⟩, some e))
  ∧ (∀ cs, cs ≠ [] → (∀ c ∈ cs, c < (New ⟨44100, 2⟩ ⟨44100, 2⟩).icCounts.length) →
      (∀ c ∈ cs, (New ⟨44100, 2⟩ ⟨44100, 2⟩).icCounts.getD c 0 = 0) →
      ((New ⟨44100, 2⟩ ⟨44100, 2⟩).SetInput ⟨44100, 2⟩ cs).2 = none
      ∧ ∀ c ∈ cs,
          ((New ⟨44100, 2⟩ ⟨44100, 2⟩).SetInput ⟨44100, 2⟩ cs).1.icCounts.getD c 0 = 1) :=
  C3_setInput_spec (New ⟨44100, 2⟩ ⟨44100, 2⟩) ⟨44100, 2⟩ rfl

/-- Claim C4: on a node with any unclaimed input or output channel,
`Run` returns a `DisconnectedError` from the pre-flight `checkConns` and
`serve` is never reached, so no connection worker is spawned (the Bool
component records whether `serve` ran). -/
theorem C4_run_disconnected (n : Node) (cycles : List (Option Err))
    (h : (∃ i, i < n.icCounts.length ∧ n.icCounts.getD i 0 = 0)
       ∨ (∃ i, i < n.ocCounts.length ∧ n.ocCounts.getD i 0 = 0)) :
    (n.Run cycles).1 = false
  ∧ ∃ b c, (n.Run cycles).2 = some (some (.disconnected b c)) := by
  have hck : ∃ b c, n.checkConns = some (.disconnected b c) := by
    rw [Node.checkConns]
    cases hic : firstZero n.icCounts with
    | some c => exact ⟨true, c, rfl⟩
    | none =>
        cases hoc : firstZero n.ocCounts with
        | some c => exact ⟨false, c, rfl⟩
        | none =>
            exfalso
            rcases h with ⟨i, hi, h0⟩ | ⟨i, hi, h0⟩
            · exact ((firstZero_eq_none_iff _).mp hic i hi) h0
            · exact ((firstZero_eq_none_iff _).mp hoc i hi) h0
  obtain ⟨b, c, hbc⟩ := hck
  rw [Node.Run, hbc]
  exact ⟨rfl, b, c, rfl⟩

/-- Claim C4 witness: a freshly created single-channel node has all
claim counters zero, so `Run` fails disconnected without serving. -/
theorem C4_run_disconnected_witness :
    ((New ⟨44100, 1⟩ ⟨44100, 1⟩).Run [none]).1 = false
  ∧ ∃ b c, ((New ⟨44100, 1⟩ ⟨44100, 1⟩).Run [none]).2
      = some (some (.disconnected b c)) :=
  C4_run_disconnected (New ⟨44100, 1⟩ ⟨44100, 1⟩) [none]
    (Or.inl ⟨0, by decide, by decide⟩)

/-- Claim C5: once the connectivity check passes, the `Run` loop runs
another cycle on a nil cycle error, returns nil exactly on the `io.EOF`
sentinel, and returns any other non-nil cycle error unchanged. -/
theorem C5_run_eof (n : Node) (rest : List (Option Err)) (e : Err)
    (h : n.checkConns = none) :
    (n.Run (none :: rest)).2 = (n.Run rest).2
  ∧ (n.Run (some Err.eof :: rest)).2 = some none
  ∧ (e ≠ Err.eof → (n.Run (some e :: rest)).2 = some (some e)) := by
  have hrun : ∀ cycles, n.Run cycles = (true, runLoop cycles) := by
    intro cycles
    rw [Node.Run, h]
  refine ⟨?_, ?_, ?_⟩
  · rw [hrun, hrun]
    rfl
  · rw [hrun]
    show runLoop (some Err.eof :: rest) = some none
    simp [runLoop]
  · intro hne
    rw [hrun]
    show runLoop (some e :: rest) = some (some e)
    simp [runLoop, hne]

/-- Claim C5 witness: a fully connected single-channel node, with the
non-EOF error instantiated as a frequency mismatch. -/
theorem C5_run_eof_witness :
    (({ New ⟨44100, 1⟩ ⟨44100, 1⟩ with icCounts := [1], ocCounts := [1] } : Node).Run
        (none :: [some Err.eof])).2
      = (({ New ⟨44100, 1⟩ ⟨44100, 1⟩ with icCounts := [1], ocCounts := [1] } : Node).Run
        [some Err.eof]).2
  ∧ (({ New ⟨44100, 1⟩ ⟨44100, 1⟩ with icCounts := [1], ocCounts := [1] } : Node).Run
        (some Err.eof :: [some Err.eof])).2 = some none
  ∧ (Err.freqMismatch ≠ Err.eof →
      (({ New ⟨44100, 1⟩ ⟨44100, 1⟩ with icCounts := [1], ocCounts := [1] } : Node).Run
        (some Err.freqMismatch :: [some Err.eof])).2 = some (some Err.freqMismatch)) :=
  C5_run_eof { New ⟨44100, 1⟩ ⟨44100, 1⟩ with icCounts := [1], ocCounts := [1] }
    [some Err.eof] Err.freqMismatch (by decide)

/-! Helper lemmas for the input-collection loop and the serve worker. -/

theorem collectLoop_cons_none (pkt : Packet) (rest : List Packet) (blk : Block)
    (nFrms : Int) (hpe : pkt.err = none) :
    collectLoop (pkt :: rest) blk nFrms
      = if (Int.ofNat pkt.n) ≠ (if nFrms = -1 then (Int.ofNat pkt.n) else nFrms)
        then (Collect.panicked, (pkt.put blk).1)
        else collectLoop rest (pkt.put blk).1
          (if nFrms = -1 then (Int.ofNat pkt.n) else nFrms) := by
  rw [collectLoop, hpe]
  rfl

theorem collectLoop_go_panics : ∀ (pkts : List Packet) (blk : Block) (v : Nat),
    (∀ p ∈ pkts, p.err = none) → (∃ p ∈ pkts, p.n ≠ v) →
    (collectLoop pkts blk (Int.ofNat v)).1 = Collect.panicked := by
  intro pkts
  induction pkts with
  | nil => intro blk v _ hex; simp at hex
  | cons pkt rest ih =>
      intro blk v herr hex
      have hpe : pkt.err = none := herr pkt (by simp)
      rw [collectLoop_cons_none pkt rest blk _ hpe]
      have hnotneg : ¬(Int.ofNat v = -1) := by
        intro hcontra
        have hv : ((v : Int)) = -1 := hcontra
        omega
      rw [if_neg hnotneg]
      by_cases hpn : pkt.n = v
      · rw [if_neg (by rw [hpn]; simp)]
        apply ih
        · intro p hp
          exact herr p (by simp [hp])
        · rcases hex with ⟨p, hp, hpv⟩
          rcases List.mem_cons.mp hp with rfl | hp'
          · exact absurd hpn hpv
          · exact ⟨p, hp', hpv⟩
      · rw [if_pos (by
          intro hcontra
          exact hpn (Int.ofNat.inj hcontra))]

theorem collectLoop_no_panic_aux : ∀ (pkts : List Packet) (blk : Block) (v : Nat),
    (∀ p ∈ pkts, p.n = v) →
    (collectLoop pkts blk (Int.ofNat v)).1 ≠ Collect.panicked := by
  intro pkts
  induction pkts with
  | nil =>
      intro blk v _
      rw [collectLoop]
      simp
  | cons pkt rest ih =>
      intro blk v hall
      cases hpe : pkt.err with
      | some e =>
          rw [collectLoop, hpe]
          simp
      | none =>
          rw [collectLoop_cons_none pkt rest blk _ hpe]
          have hnotneg : ¬(Int.ofNat v = -1) := by
            intro hcontra
            have hv : ((v : Int)) = -1 := hcontra
            omega
          rw [if_neg hnotneg]
          have hpn : pkt.n = v := hall pkt (by simp)
          rw [if_neg (by rw [hpn]; simp)]
          exact ih _ v (fun p hp => hall p (by simp [hp]))

theorem serveRun_sink_aux (m : Nat) : ∀ (evs : List ServeEvent),
    (∀ ev ∈ evs, ev.pkt.hasSnk = true) →
    (serveRun m evs).1 = m ∧ ∀ q ∈ (serveRun m evs).2, q.n = m := by
  intro evs
  induction evs with
  | nil =>
      intro _
      exact ⟨rfl, by intro q hq; simp [serveRun] at hq⟩
  | cons ev rest ih =>
      intro h
      have hsnk : ev.pkt.hasSnk = true := h ev (by simp)
      have hstep : serveStep m ev.pkt ev.recv ev.send
          = (m, { ev.pkt with n := m, err := ev.send }) := by
        rw [serveStep, if_neg (by simp [hsnk])]
      rw [serveRun, hstep]
      obtain ⟨h1, h2⟩ := ih (fun e he => h e (by simp [he]))
      refine ⟨h1, ?_⟩
      intro q hq
      rcases List.mem_cons.mp hq with rfl | hq'
      · rfl
      · exact h2 q hq'

/-- Claim C6: in the input-collection loop of a processing cycle, if all
input packets carry no error and two of them report differing achieved
frame counts, the loop takes the `panic("wilma!")` branch; whenever all
input packets report the same achieved frame count the panic branch is
unreachable. -/
theorem C6_collect_frames (pkts : List Packet) (blk : Block) :
    ((∀ p ∈ pkts, p.err = none) →
      (∃ p ∈ pkts, ∃ q ∈ pkts, p.n ≠ q.n) →
      (collectLoop pkts blk (-1)).1 = Collect.panicked)
  ∧ ((∀ p ∈ pkts, ∀ q ∈ pkts, p.n = q.n) →
      (collectLoop pkts blk (-1)).1 ≠ Collect.panicked) := by
  constructor
  · intro herr hex
    cases pkts with
    | nil => simp at hex
    | cons pkt rest =>
        have hpe : pkt.err = none := herr pkt (by simp)
        rw [collectLoop_cons_none pkt rest blk _ hpe, if_pos rfl, if_neg (by simp)]
        apply collectLoop_go_panics
        · intro p hp
          exact herr p (by simp [hp])
        · by_cases hall : ∀ x ∈ rest, x.n = pkt.n
          · exfalso
            rcases hex with ⟨p, hp, q, hq, hpq⟩
            have hpv : p.n = pkt.n := by
              rcases List.mem_cons.mp hp with rfl | hp'
              · rfl
              · exact hall p hp'
            have hqv : q.n = pkt.n := by
              rcases List.mem_cons.mp hq with rfl | hq'
              · rfl
              · exact hall q hq'
            rw [hpv, hqv] at hpq
            exact hpq rfl
          · push_neg at hall
            exact hall
  · intro hall
    cases pkts with
    | nil =>
        rw [collectLoop]
        simp
    | cons pkt rest =>
        cases hpe : pkt.err with
        | some e =>
            rw [collectLoop, hpe]
            simp
        | none =>
            rw [collectLoop_cons_none pkt rest blk _ hpe, if_pos rfl, if_neg (by simp)]
            exact collectLoop_no_panic_aux rest _ pkt.n
              (fun p hp => hall p (by simp [hp]) pkt (by simp))

/-- Claim C6 witness: two error-free input packets with achieved frame
counts 1 and 2 panic the loop; two with equal counts do not. -/
theorem C6_collect_frames_witness :
    (collectLoop [⟨none, 1, ⟨[], 0⟩, ⟨[], []⟩, 0, false⟩,
        ⟨none, 2, ⟨[], 0⟩, ⟨[], []⟩, 0, false⟩] ⟨[], 0, 0, 0⟩ (-1)).1 = Collect.panicked
  ∧ (collectLoop [⟨none, 1, ⟨[], 0⟩, ⟨[], []⟩, 0, false⟩,
        ⟨none, 1, ⟨[], 0⟩, ⟨[], []⟩, 0, false⟩] ⟨[], 0, 0, 0⟩ (-1)).1 ≠ Collect.panicked :=
  ⟨(C6_collect_frames [⟨none, 1, ⟨[], 0⟩, ⟨[], []⟩, 0, false⟩,
      ⟨none, 2, ⟨[], 0⟩, ⟨[], []⟩, 0, false⟩] ⟨[], 0, 0, 0⟩).1 (by decide) (by decide),
   (C6_collect_frames [⟨none, 1, ⟨[], 0⟩, ⟨[], []⟩, 0, false⟩,
      ⟨none, 1, ⟨[], 0⟩, ⟨[], []⟩, 0, false⟩] ⟨[], 0, 0, 0⟩).2 (by decide)⟩

/-- Claim C7 (code bug exhibit): on a two-output-channel node with the
selection `[0]`, `AddOutput` increments only channel 0's claim counter
as the claim states, but `Output` increments every output channel's
counter — the two branches of its `if len(cs) != 0` have identical
bodies — so the claim's per-selection accounting fails for `Output`. -/
theorem C7_output_counters :
    ((New ⟨44100, 2⟩ ⟨44100, 2⟩).Output [0]).ocCounts = [1, 1]
  ∧ ((New ⟨44100, 2⟩ ⟨44100, 2⟩).AddOutput ⟨44100, 1⟩ [0]).1.ocCounts = [1, 0] := by
  decide

/-- Claim C1 (code bug exhibit): in a MonoMode cycle on a two-channel
node, `Process` is invoked once per channel with the samples sliced to
that channel's frame-run, but the `Channels` field of both argument
blocks stays at the node's channel count 2 — the loop saves and restores
`Channels` yet never pins it to 1, contradicting the claim and the
`Processor` interface's own documentation. -/
theorem C1_monoMode_blocks :
    ((monoModeArm ⟨[10, 11, 20, 21], 2, 2, 44100⟩ ⟨[0, 0, 0, 0], 2, 2, 44100⟩ 2 2
        (fun _ => none)).1).map
        (fun call => ((call.1.channels, call.2.channels), call.1.samples, call.2.samples))
      = [((2, 2), [0, 0], [10, 11]), ((2, 2), [0, 0], [20, 21])]
  ∧ (monoModeArm ⟨[10, 11, 20, 21], 2, 2, 44100⟩ ⟨[0, 0, 0, 0], 2, 2, 44100⟩ 2 2
      (fun _ => none)).2.2.1.samples = [10, 11, 20, 21] := by
  decide

/-- Claim C10: a `conn.serve` worker that has only ever handled
sink-carrying (output) packets never assigns its local variable `m`, so
every handled packet comes back with achieved frame count `m = 0`,
regardless of how many frames were sent. -/
theorem C10_sink_frames_zero (evs : List ServeEvent)
    (h : ∀ ev ∈ evs, ev.pkt.hasSnk = true) :
    ∀ q ∈ (serveRun 0 evs).2, q.n = 0 :=
  (serveRun_sink_aux 0 evs h).2

/-- Claim C10 witness: two sends of non-empty buffers still report an
achieved frame count of 0 on both handled packets. -/
theorem C10_sink_frames_zero_witness :
    ((serveRun 0
      [⟨⟨none, 7, ⟨[1, 2], 2⟩, ⟨[], []⟩, 1, true⟩, (5, none), none⟩,
       ⟨⟨none, 9, ⟨[3], 1⟩, ⟨[], []⟩, 1, true⟩, (4, none), some Err.eof⟩]).2.getD 0
        ⟨none, 5, ⟨[], 0⟩, ⟨[], []⟩, 0, true⟩).n = 0
  ∧ ((serveRun 0
      [⟨⟨none, 7, ⟨[1, 2], 2⟩, ⟨[], []⟩, 1, true⟩, (5, none), none⟩,
       ⟨⟨none, 9, ⟨[3], 1⟩, ⟨[], []⟩, 1, true⟩, (4, none), some Err.eof⟩]).2.getD 1
        ⟨none, 5, ⟨[], 0⟩, ⟨[], []⟩, 0, true⟩).n = 0 :=
  ⟨C10_sink_frames_zero
    [⟨⟨none, 7, ⟨[1, 2], 2⟩, ⟨[], []⟩, 1, true⟩, (5, none), none⟩,
     ⟨⟨none, 9, ⟨[3], 1⟩, ⟨[], []⟩, 1, true⟩, (4, none), some Err.eof⟩] (by decide)
    _ (by decide),
   C10_sink_frames_zero
    [⟨⟨none, 7, ⟨[1, 2], 2⟩, ⟨[], []⟩, 1, true⟩, (5, none), none⟩,
     ⟨⟨none, 9, ⟨[3], 1⟩, ⟨[], []⟩, 1, true⟩, (4, none), some Err.eof⟩] (by decide)
    _ (by decide)⟩

example : buffer ⟨[], 0⟩ 1 1 = ⟨[0], 1⟩ := by decide

example : newCmap ⟨44100, 3⟩ [2, 0] = ⟨[1, -1, 0], [2, 0]⟩ := by decide

example :
    (Packet.get (Packet.init ⟨none, 0, ⟨[], 0⟩, ⟨[], []⟩, 0, false⟩ ⟨44100, 3⟩ [2, 0])
      ⟨[1, 2, 3, 4, 5, 6], 2, 3, 44100⟩).samples.view = [5, 6, 1, 2] := by decide

example :
    ((Packet.get (Packet.init ⟨none, 0, ⟨[], 0⟩, ⟨[], []⟩, 0, false⟩ ⟨44100, 3⟩ [2, 0])
      ⟨[1, 2, 3, 4, 5, 6], 2, 3, 44100⟩).put
      ⟨[9, 9, 9, 9, 9, 9], 2, 3, 44100⟩).1.samples = [1, 2, 9, 9, 5, 6] := by decide

end Plug
